import Mathlib

/-!
# Verification of the astrapy client core

A shallow embedding of the astrapy repository's core components, together
with proofs of the specified properties.

The repository's `src/astrapy/db.py` (the `AstraDB` / `AstraDBCollection`
classes) is embedded directly.  The idiomatic-layer components exercised by
`tests/idiomatic/integration/test_dml_async.py` — the dotted-path distinct
extractor, the paginated result cursor and the bulk-write executor — are not
present under `src/`; they are modelled from the specification (each such
definition carries a doc comment starting `Modelled from the spec:`).
-/

namespace Astrapy

/-! ## JSON-compatible document values -/

/-- Modelled from the spec: the tagged union over JSON-compatible value kinds
(§9 design notes), with date/time values as an extra leaf kind as required by
the distinct deduplication policy (§4.1). -/
inductive JValue where
  | null : JValue
  | bool : Bool → JValue
  | num : Int → JValue
  | str : String → JValue
  | date : Nat → JValue
  | arr : List JValue → JValue
  | obj : List (String × JValue) → JValue

mutual
/-- Structural size of a value, used as a termination measure. -/
def jsize : JValue → Nat
  | .null => 1
  | .bool _ => 1
  | .num _ => 1
  | .str _ => 1
  | .date _ => 1
  | .arr xs => 1 + jsizeList xs
  | .obj fs => 1 + jsizeFields fs

def jsizeList : List JValue → Nat
  | [] => 0
  | x :: xs => 1 + jsize x + jsizeList xs

def jsizeFields : List (String × JValue) → Nat
  | [] => 0
  | (_, v) :: fs => 1 + jsize v + jsizeFields fs
end

theorem jsize_lt_of_mem_list {x : JValue} {xs : List JValue} (h : x ∈ xs) :
    jsize x < 1 + jsizeList xs := by
  induction xs with
  | nil => cases h
  | cons y ys ih =>
    rcases List.mem_cons.mp h with h1 | h2
    · subst h1; simp only [jsizeList]; omega
    · have := ih h2; simp only [jsizeList]; omega

theorem jsize_lt_of_mem_fields {p : String × JValue} {fs : List (String × JValue)}
    (h : p ∈ fs) : jsize p.2 < 1 + jsizeFields fs := by
  induction fs with
  | nil => cases h
  | cons q qs ih =>
    rcases List.mem_cons.mp h with h1 | h2
    · subst h1
      obtain ⟨k, v⟩ := p
      simp only [jsizeFields]; omega
    · have := ih h2
      obtain ⟨k, v⟩ := q
      simp only [jsizeFields]; omega

/-- Induction principle for `JValue` with membership hypotheses at the
nested list occurrences. -/
theorem jValue_ind (P : JValue → Prop)
    (hnull : P .null) (hbool : ∀ b, P (.bool b)) (hnum : ∀ n, P (.num n))
    (hstr : ∀ s, P (.str s)) (hdate : ∀ d, P (.date d))
    (harr : ∀ xs, (∀ x, x ∈ xs → P x) → P (.arr xs))
    (hobj : ∀ fs, (∀ p, p ∈ fs → P p.2) → P (.obj fs)) :
    ∀ v, P v
  | .null => hnull
  | .bool b => hbool b
  | .num n => hnum n
  | .str s => hstr s
  | .date d => hdate d
  | .arr xs =>
    harr xs (fun x hx => jValue_ind P hnull hbool hnum hstr hdate harr hobj x)
  | .obj fs =>
    hobj fs (fun p hp => jValue_ind P hnull hbool hnum hstr hdate harr hobj p.2)
termination_by v => jsize v
decreasing_by
  · have := jsize_lt_of_mem_list hx
    simp only [jsize]; omega
  · have := jsize_lt_of_mem_fields hp
    simp only [jsize]; omega

mutual
/-- Boolean structural (syntactic) equality of values. -/
def jBeq : JValue → JValue → Bool
  | .null, .null => true
  | .bool a, .bool b => a == b
  | .num a, .num b => a == b
  | .str a, .str b => a == b
  | .date a, .date b => a == b
  | .arr xs, .arr ys => jBeqList xs ys
  | .obj fs, .obj gs => jBeqFields fs gs
  | _, _ => false

def jBeqList : List JValue → List JValue → Bool
  | [], [] => true
  | x :: xs, y :: ys => jBeq x y && jBeqList xs ys
  | _, _ => false

def jBeqFields : List (String × JValue) → List (String × JValue) → Bool
  | [], [] => true
  | (k, v) :: fs, (l, w) :: gs => k == l && jBeq v w && jBeqFields fs gs
  | _, _ => false
end

theorem jBeqList_refl {xs : List JValue} (h : ∀ x, x ∈ xs → jBeq x x = true) :
    jBeqList xs xs = true := by
  induction xs with
  | nil => rfl
  | cons y ys ih =>
    simp only [jBeqList, Bool.and_eq_true]
    exact ⟨h y (List.mem_cons_self _ _), ih (fun x hx => h x (List.mem_cons_of_mem _ hx))⟩

theorem jBeqFields_refl {fs : List (String × JValue)}
    (h : ∀ p, p ∈ fs → jBeq p.2 p.2 = true) : jBeqFields fs fs = true := by
  induction fs with
  | nil => rfl
  | cons q qs ih =>
    cases q with
    | mk k v =>
      simp only [jBeqFields, Bool.and_eq_true]
      exact ⟨⟨beq_self_eq_true k, h (k, v) (List.mem_cons_self _ _)⟩,
        ih (fun p hp => h p (List.mem_cons_of_mem _ hp))⟩

theorem jBeq_refl : ∀ v : JValue, jBeq v v = true := by
  intro v
  induction v using jValue_ind with
  | hnull => rfl
  | hbool b => simp [jBeq]
  | hnum n => simp [jBeq]
  | hstr s => simp [jBeq]
  | hdate d => simp [jBeq]
  | harr xs ih => simpa only [jBeq] using jBeqList_refl ih
  | hobj fs ih => simpa only [jBeq] using jBeqFields_refl ih

theorem jBeqList_sound {xs : List JValue}
    (h : ∀ x, x ∈ xs → ∀ b, jBeq x b = true → x = b) :
    ∀ ys, jBeqList xs ys = true → xs = ys := by
  induction xs with
  | nil => intro ys hy; cases ys with
    | nil => rfl
    | cons b bs => simp [jBeqList] at hy
  | cons a as ih =>
    intro ys hy
    cases ys with
    | nil => simp [jBeqList] at hy
    | cons b bs =>
      simp only [jBeqList, Bool.and_eq_true] at hy
      have h1 := h a (List.mem_cons_self _ _) b hy.1
      have h2 := ih (fun x hx => h x (List.mem_cons_of_mem _ hx)) bs hy.2
      rw [h1, h2]

theorem jBeqFields_sound {fs : List (String × JValue)}
    (h : ∀ p, p ∈ fs → ∀ b, jBeq p.2 b = true → p.2 = b) :
    ∀ gs, jBeqFields fs gs = true → fs = gs := by
  induction fs with
  | nil => intro gs hg; cases gs with
    | nil => rfl
    | cons q qs => simp [jBeqFields] at hg
  | cons p ps ih =>
    intro gs hg
    cases gs with
    | nil => cases p; simp [jBeqFields] at hg
    | cons q qs =>
      cases p with
      | mk k v =>
        cases q with
        | mk l w =>
          simp only [jBeqFields, Bool.and_eq_true] at hg
          have hk : k = l := eq_of_beq hg.1.1
          have hv : v = w := h (k, v) (List.mem_cons_self _ _) w hg.1.2
          have hs : ps = qs := ih (fun p hp => h p (List.mem_cons_of_mem _ hp)) qs hg.2
          rw [hk, hv, hs]

theorem jBeq_sound : ∀ a b : JValue, jBeq a b = true → a = b := by
  intro a
  induction a using jValue_ind with
  | hnull => intro b hb; cases b <;> simp_all [jBeq]
  | hbool x => intro b hb; cases b <;> simp_all [jBeq]
  | hnum x => intro b hb; cases b <;> simp_all [jBeq]
  | hstr x => intro b hb; cases b <;> simp_all [jBeq]
  | hdate x => intro b hb; cases b <;> simp_all [jBeq]
  | harr xs ih =>
    intro b hb
    cases b with
    | arr ys => rw [jBeqList_sound ih ys (by simpa [jBeq] using hb)]
    | null | bool _ | num _ | str _ | date _ | obj _ => simp [jBeq] at hb
  | hobj fs ih =>
    intro b hb
    cases b with
    | obj gs => rw [jBeqFields_sound ih gs (by simpa [jBeq] using hb)]
    | null | bool _ | num _ | str _ | date _ | arr _ => simp [jBeq] at hb

instance : DecidableEq JValue := fun a b =>
  if h : jBeq a b = true then .isTrue (jBeq_sound a b h)
  else .isFalse (fun e => h (e ▸ jBeq_refl a))

instance {ε α : Type} [DecidableEq ε] [DecidableEq α] : DecidableEq (Except ε α) :=
  fun a b =>
    match a, b with
    | .ok x, .ok y =>
      if h : x = y then .isTrue (by rw [h]) else .isFalse (by intro e; cases e; exact h rfl)
    | .error x, .error y =>
      if h : x = y then .isTrue (by rw [h]) else .isFalse (by intro e; cases e; exact h rfl)
    | .ok _, .error _ => .isFalse (by intro e; cases e)
    | .error _, .ok _ => .isFalse (by intro e; cases e)

/-! ## Canonical form and deep structural equality -/

/-- Lexicographic (by code point) comparison of character lists. -/
def charsLe : List Char → List Char → Bool
  | [], _ => true
  | _ :: _, [] => false
  | a :: as, b :: bs =>
    if a.toNat < b.toNat then true
    else if b.toNat < a.toNat then false
    else charsLe as bs

/-- Lexicographic comparison of strings, used to sort object keys. -/
def strLe (s t : String) : Bool := charsLe s.data t.data

/-- Insert a field into a key-sorted field list (insertion-sort step). -/
def insertField (p : String × JValue) : List (String × JValue) → List (String × JValue)
  | [] => [p]
  | q :: qs => if strLe p.1 q.1 then p :: q :: qs else q :: insertField p qs

/-- Sort an object's field list by key (insertion sort). -/
def sortFields : List (String × JValue) → List (String × JValue)
  | [] => []
  | p :: ps => insertField p (sortFields ps)

mutual
/-- Canonical form of a value: object keys recursively sorted.  This mirrors
the client's hashable-key encoding (`json.dumps(..., sort_keys=True)`) used
to deduplicate non-hashable distinct values. -/
def canon : JValue → JValue
  | .null => .null
  | .bool b => .bool b
  | .num n => .num n
  | .str s => .str s
  | .date d => .date d
  | .arr xs => .arr (canonList xs)
  | .obj fs => .obj (sortFields (canonFields fs))

def canonList : List JValue → List JValue
  | [] => []
  | x :: xs => canon x :: canonList xs

def canonFields : List (String × JValue) → List (String × JValue)
  | [] => []
  | (k, v) :: fs => (k, canon v) :: canonFields fs
end

/-- Modelled from the spec: deep structural equality of document values,
ignoring object key order (§4.1 deduplication policy): two values are the
same distinct value iff their canonical forms coincide. -/
def jEq (a b : JValue) : Bool := jBeq (canon a) (canon b)

theorem jEq_iff {a b : JValue} : jEq a b = true ↔ canon a = canon b := by
  constructor
  · exact fun h => jBeq_sound _ _ h
  · intro h; unfold jEq; rw [h]; exact jBeq_refl _

theorem jEq_refl (a : JValue) : jEq a a = true := jBeq_refl _

/-! ## The dotted-path distinct extractor (PathExtractor) -/

/-- Modelled from the spec: a parsed path segment — the verbatim segment
string paired with its reading as a valid non-negative array index, when the
segment is the canonical decimal form of such an index. -/
abbrev PathBlock := String × Option Nat

/-- Read a string as a natural number if it consists solely of decimal
digits; `none` otherwise. -/
def digitsToNat? (s : String) : Option Nat :=
  if s.data ≠ [] ∧ s.data.all (fun c => c.isDigit) then
    some (s.data.foldl (fun acc c => acc * 10 + (c.toNat - '0'.toNat)) 0)
  else none

/-- Modelled from the spec: a segment counts as an array index only when it
is the canonical decimal representation of a non-negative integer (so "1" is
an index but "01", "+1", "-1" are not). -/
def maybeValidListIndex (s : String) : Option Nat :=
  match digitsToNat? s with
  | none => none
  | some n => if s.data = (Nat.repr n).data then some n else none

/-- Split a character list on the dot separator, preserving empty
segments (so consecutive dots yield an empty segment). -/
def splitDots (acc : List Char) : List Char → List (List Char)
  | [] => [acc.reverse]
  | c :: cs =>
    if c = '.' then acc.reverse :: splitDots [] cs
    else splitDots (c :: acc) cs

/-- Modelled from the spec: split the dotted path on "." and pair each
segment with its optional index reading; an empty path or a path with an
empty segment (consecutive dots, leading/trailing dot) is rejected as
`InvalidPath` before any document is touched (§4.1, §7). -/
def parseBlocks (key : String) : Except String (List PathBlock) :=
  let blocks := (splitDots [] key.data).map
    (fun cs => ((⟨cs⟩ : String), maybeValidListIndex ⟨cs⟩))
  if blocks = [] then
    .error "Field path specification cannot be empty"
  else if blocks.any (fun kb => kb.1.data = []) then
    .error "Field path components cannot be empty"
  else
    .ok blocks

mutual
/-- Modelled from the spec: consume one path segment at the current value
(§4.1).  At an object a verbatim key match wins — this takes precedence over
the index reading — and the walk descends into that key's value; at an array
a valid in-range index segment selects that element (bypassing the fan-out),
and otherwise the segment is pushed through every element of the array
independently (array fan-out); at any other value the walk dead-ends. -/
def stepBlock (b : PathBlock) : JValue → List JValue
  | .obj fields =>
    match fields.lookup b.1 with
    | some w => [w]
    | none => []
  | .arr items =>
    match b.2 with
    | some i =>
      if h : i < items.length then [items.get ⟨i, h⟩]
      else stepBlockList b items
    | none => stepBlockList b items
  | _ => []

/-- Fan out: push the segment through every array element independently,
concatenating the produced values in order. -/
def stepBlockList (b : PathBlock) : List JValue → List JValue
  | [] => []
  | x :: xs => stepBlock b x ++ stepBlockList b xs
end

/-- Modelled from the spec: at the end of the path a list leaf is unrolled
one level into its elements; any other terminal value is yielded as-is
(§4.1). -/
def unrollLeaf : JValue → List JValue
  | .arr items => items
  | v => [v]

/-- Modelled from the spec: walk a document along the parsed path blocks,
left to right (§4.1), consuming one segment at a time (with array fan-out),
and unroll a list leaf at the end of the path. -/
def extract : List PathBlock → JValue → List JValue
  | [], v => unrollLeaf v
  | b :: rest, v => (stepBlock b v).flatMap (extract rest)

/-- First-seen-order deduplication by deep structural equality, carrying the
set of already-seen values. -/
def dedupAux (seen : List JValue) : List JValue → List JValue
  | [] => []
  | x :: xs =>
    if seen.any (fun s => jEq s x) then dedupAux seen xs
    else x :: dedupAux (x :: seen) xs

/-- Deduplicate a produced value sequence, first-seen order preserved. -/
def dedupValues (xs : List JValue) : List JValue := dedupAux [] xs

/-- Modelled from the spec: client-side `distinct` over a collection of
documents — parse the path (failing fast on a malformed path, before any
document is touched), extract from each document in order, deduplicate by
deep structural equality (§4.1). -/
def distinct (key : String) (docs : List JValue) : Except String (List JValue) :=
  match parseBlocks key with
  | .error e => .error e
  | .ok blocks => .ok (dedupValues (docs.flatMap (extract blocks)))

/-- The document of the array-fan-out/literal-key precedence example:
`{"x": [{"y": "Y", "0": "ZERO"}]}`. -/
def precedenceDoc : JValue :=
  .obj [("x", .arr [.obj [("y", .str "Y"), ("0", .str "ZERO")]])]

/-! ## Supporting lemmas on deep structural equality and deduplication -/

theorem jEq_trans {a b c : JValue} (h1 : jEq a b = true) (h2 : jEq b c = true) :
    jEq a c = true := by
  rw [jEq_iff] at h1 h2 ⊢
  exact h1.trans h2

theorem dedupAux_covered {seen ys : List JValue}
    (h : ∀ y ∈ ys, ∃ s ∈ seen, jEq s y = true) : dedupAux seen ys = [] := by
  induction ys with
  | nil => rfl
  | cons y ys ih =>
    have hany : seen.any (fun s => jEq s y) = true := by
      obtain ⟨s, hs, hsy⟩ := h y (List.mem_cons_self _ _)
      exact List.any_eq_true.mpr ⟨s, hs, hsy⟩
    simp only [dedupAux, hany, if_true]
    exact ih (fun y hy => h y (List.mem_cons_of_mem _ hy))

theorem dedupAux_append_covered :
    ∀ (xs seen ys : List JValue),
      (∀ y ∈ ys, (∃ x ∈ xs, jEq x y = true) ∨ (∃ s ∈ seen, jEq s y = true)) →
      dedupAux seen (xs ++ ys) = dedupAux seen xs := by
  intro xs
  induction xs with
  | nil =>
    intro seen ys h
    simp only [List.nil_append, dedupAux]
    exact dedupAux_covered (fun y hy => by
      rcases h y hy with ⟨x, hx, _⟩ | hs
      · cases hx
      · exact hs)
  | cons x xs ih =>
    intro seen ys h
    by_cases hx : seen.any (fun s => jEq s x) = true
    · simp only [List.cons_append, dedupAux, hx, if_true]
      apply ih
      intro y hy
      rcases h y hy with ⟨x', hx', hxy⟩ | hs
      · rcases List.mem_cons.mp hx' with h1 | hmem
        · subst h1
          obtain ⟨s, hs, hsx⟩ := List.any_eq_true.mp hx
          exact Or.inr ⟨s, hs, jEq_trans hsx hxy⟩
        · exact Or.inl ⟨x', hmem, hxy⟩
      · exact Or.inr hs
    · simp only [List.cons_append, dedupAux, hx, if_false, Bool.false_eq_true]
      congr 1
      apply ih
      intro y hy
      rcases h y hy with ⟨x', hx', hxy⟩ | ⟨s, hs, hsy⟩
      · rcases List.mem_cons.mp hx' with h1 | hmem
        · exact Or.inr ⟨x, List.mem_cons_self _ _, h1 ▸ hxy⟩
        · exact Or.inl ⟨x', hmem, hxy⟩
      · exact Or.inr ⟨s, List.mem_cons_of_mem _ hs, hsy⟩

/-- Inserting the same batch of documents twice yields the same distinct
values as inserting it once. -/
theorem distinct_double (key : String) (docs : List JValue) :
    distinct key (docs ++ docs) = distinct key docs := by
  unfold distinct
  cases parseBlocks key with
  | error e => rfl
  | ok blocks =>
    show Except.ok (dedupValues ((docs ++ docs).flatMap (extract blocks)))
      = Except.ok (dedupValues (docs.flatMap (extract blocks)))
    unfold dedupValues
    rw [List.append_bind]
    rw [dedupAux_append_covered _ _ _ (fun y hy => Or.inl ⟨y, hy, jEq_refl y⟩)]

theorem charEq_of_toNat_eq {a b : Char} (h : a.toNat = b.toNat) : a = b := by
  have ha := Char.ofNat_toNat a
  rw [← ha, h, Char.ofNat_toNat]

theorem charsLe_total : ∀ as bs : List Char, charsLe as bs = true ∨ charsLe bs as = true := by
  intro as
  induction as with
  | nil => intro bs; exact Or.inl rfl
  | cons a as ih =>
    intro bs
    cases bs with
    | nil => exact Or.inr rfl
    | cons b bs =>
      by_cases h1 : a.toNat < b.toNat
      · left; simp [charsLe, h1]
      · by_cases h2 : b.toNat < a.toNat
        · right; simp [charsLe, h2]
        · rcases ih bs with h | h
          · left; simp [charsLe, h1, h2, h]
          · right; simp [charsLe, h1, h2, h]

theorem charsLe_antisymm : ∀ as bs : List Char,
    charsLe as bs = true → charsLe bs as = true → as = bs := by
  intro as
  induction as with
  | nil =>
    intro bs h1 h2
    cases bs with
    | nil => rfl
    | cons b bs => simp [charsLe] at h2
  | cons a as ih =>
    intro bs h1 h2
    cases bs with
    | nil => simp [charsLe] at h1
    | cons b bs =>
      by_cases hab : a.toNat < b.toNat
      · exfalso
        simp [charsLe, hab, Nat.lt_asymm hab] at h2
      · by_cases hba : b.toNat < a.toNat
        · exfalso
          simp [charsLe, hab, hba] at h1
        · have heq : a = b :=
            charEq_of_toNat_eq (Nat.le_antisymm (Nat.not_lt.mp hba) (Nat.not_lt.mp hab))
          simp only [charsLe, hab, hba, if_false] at h1 h2
          rw [heq, ih bs h1 h2]

theorem strLe_total (s t : String) : strLe s t = true ∨ strLe t s = true :=
  charsLe_total s.data t.data

theorem strLe_antisymm {s t : String} (h1 : strLe s t = true) (h2 : strLe t s = true) :
    s = t := by
  cases s with
  | mk sd =>
    cases t with
    | mk td => rw [charsLe_antisymm sd td h1 h2]

theorem sortFields_pair_swap {k1 k2 : String} (a b : JValue) (h : k1 ≠ k2) :
    sortFields [(k1, a), (k2, b)] = sortFields [(k2, b), (k1, a)] := by
  by_cases h12 : strLe k1 k2 = true
  · have h21 : strLe k2 k1 ≠ true := fun hh => h (strLe_antisymm h12 hh)
    simp [sortFields, insertField, h12, h21]
  · have h21 : strLe k2 k1 = true := (strLe_total k1 k2).resolve_left h12
    simp [sortFields, insertField, h12, h21]

/-- Two-field objects with the same fields in either key order are the same
distinct value under deep structural equality. -/
theorem jEq_obj_pair_swap {k1 k2 : String} (v1 v2 : JValue) (h : k1 ≠ k2) :
    jEq (.obj [(k1, v1), (k2, v2)]) (.obj [(k2, v2), (k1, v1)]) = true := by
  rw [jEq_iff]
  simp only [canon, canonFields]
  rw [sortFields_pair_swap _ _ h]

/-! ## Claim theorems: the distinct extractor -/

/-- C1: for the document `{"x": [{"y": "Y", "0": "ZERO"}]}`, the distinct
extraction gives literal object keys precedence over array-index
interpretation: `distinct "x.0"` yields the whole element (the object, whose
literal key wins at the next level), `distinct "x.y"` fans out over the array
and yields `["Y"]`, and `distinct "x.0.y"` indexes then descends the key,
yielding `["Y"]`. -/
theorem distinct_literal_key_precedence :
    distinct "x.0" [precedenceDoc]
      = .ok [.obj [("y", .str "Y"), ("0", .str "ZERO")]]
    ∧ distinct "x.y" [precedenceDoc] = .ok [.str "Y"]
    ∧ distinct "x.0.y" [precedenceDoc] = .ok [.str "Y"] :=
  ⟨by decide, by decide, by decide⟩

/-- C2: for every collection of documents, each of the four malformed paths
`root.1..subf`, `root..1.subf`, `root..subf.subsubf`, `root.subf..subsubf`
makes `distinct` fail with the invalid-path condition, uniformly in the
documents (so before any document is touched and without any network
call). -/
theorem distinct_malformed_paths_rejected :
    ∀ docs : List JValue,
      distinct "root.1..subf" docs = .error "Field path components cannot be empty"
      ∧ distinct "root..1.subf" docs = .error "Field path components cannot be empty"
      ∧ distinct "root..subf.subsubf" docs = .error "Field path components cannot be empty"
      ∧ distinct "root.subf..subsubf" docs = .error "Field path components cannot be empty" :=
  fun _ => ⟨rfl, rfl, rfl, rfl⟩

/-- C3: `distinct` deduplicates extracted values by deep structural equality
— inserting the same batch of documents twice never double-counts a value; a
list leaf at the end of the path is unrolled into its elements before
deduplication; and nested objects with identical fields in different key
order are one distinct value. -/
theorem distinct_structural_dedup :
    (∀ (key : String) (docs : List JValue),
        distinct key (docs ++ docs) = distinct key docs)
    ∧ (∀ xs : List JValue, extract [] (.arr xs) = xs)
    ∧ (∀ (k1 k2 : String) (v1 v2 : JValue), k1 ≠ k2 →
        jEq (.obj [(k1, v1), (k2, v2)]) (.obj [(k2, v2), (k1, v1)]) = true) :=
  ⟨distinct_double, fun _ => rfl, fun _ _ v1 v2 h => jEq_obj_pair_swap v1 v2 h⟩

/-- Witness for C3 at a concrete input: the hypothesis `"subf" ≠ "another"`
is discharged concretely and the theorem applied. -/
theorem distinct_structural_dedup_witness :
    jEq (.obj [("subf", .num 99), ("another", .bool true)])
      (.obj [("another", .bool true), ("subf", .num 99)]) = true :=
  distinct_structural_dedup.2.2 "subf" "another" (.num 99) (.bool true) (by decide)

/-! ## The `db.py` layer: AstraDB and AstraDBCollection

These embed `src/astrapy/db.py` directly.  The HTTP transport
(`make_request`) and the DevOps region lookup (`AstraDBOps.get_database`)
live outside `src/` and are abstracted as collaborator functions. -/

/-- From `astrapy.defaults` (outside `src/`); the exact value is immaterial
to the claims, only that it is the default applied when no namespace is
given. -/
def DEFAULT_KEYSPACE_NAME : String := "default_keyspace"

/-- `db.py:24`. -/
def DEFAULT_BASE_PATH : String := "/api/json/v1"

/-- The state an `AstraDB.__init__` call establishes (db.py:238-267). -/
structure AstraDBState where
  db_id : String
  tok : String
  db_region : String
  base_url : String
  base_path : String
  nspace : String
deriving DecidableEq

/-- Embeds `AstraDB.__init__` (db.py:238-267): the assertion on `db_id` /
`token` comes first; a falsy `db_region` (absent or empty) is resolved
through the DevOps API, abstracted as `fetchRegion`. -/
def astraDB_init (db_id tok db_region nspace : Option String)
    (fetchRegion : String → String) : Except String AstraDBState :=
  match db_id, tok with
  | some did, some tk =>
    let ns := nspace.getD DEFAULT_KEYSPACE_NAME
    let region :=
      match db_region with
      | some r => if r = "" then fetchRegion did else r
      | none => fetchRegion did
    .ok { db_id := did, tok := tk, db_region := region,
          base_url := "https://" ++ did ++ "-" ++ region ++ ".apps.astra.datastax.com",
          base_path := DEFAULT_BASE_PATH ++ "/" ++ ns,
          nspace := ns }
  | _, _ => .error "Must provide db_id and token"

/-- The state an `AstraDBCollection.__init__` call establishes
(db.py:27-47). -/
structure AstraDBCollectionState where
  astra_db : AstraDBState
  collection_name : String
  base_path : String
deriving DecidableEq

/-- Embeds `AstraDBCollection.__init__` (db.py:27-47): with no `astra_db`
handle, `db_id` and `token` are both required (same assertion message), and
an `AstraDB` is constructed from them. -/
def astraDBCollection_init (collection_name : String)
    (astra_db : Option AstraDBState) (db_id tok db_region nspace : Option String)
    (fetchRegion : String → String) : Except String AstraDBCollectionState :=
  match astra_db with
  | some adb =>
    .ok { astra_db := adb, collection_name := collection_name,
          base_path := adb.base_path ++ "/" ++ collection_name }
  | none =>
    if db_id = none ∨ tok = none then
      .error "Must provide db_id and token"
    else
      match astraDB_init db_id tok db_region nspace fetchRegion with
      | .error e => .error e
      | .ok adb =>
        .ok { astra_db := adb, collection_name := collection_name,
              base_path := adb.base_path ++ "/" ++ collection_name }

/-- URL query parameters of a GET request (the `options` of `_get`). -/
abbrev UrlOptions := List (String × String)

/-- Embeds the path computation of `AstraDBCollection._get` (db.py:62):
`f"{self.base_path}/{path}" if path else self.base_path` — Python
truthiness, so a missing or empty `path` falls back to the base path. -/
def getFullPath (base_path : String) (path : Option String) : String :=
  match path with
  | some p => if p = "" then base_path else base_path ++ "/" ++ p
  | none => base_path

/-- Whether a response value is a dict. -/
def isDict : JValue → Bool
  | .obj _ => true
  | _ => false

/-- Embeds `AstraDBCollection._get` (db.py:61-68): issue the GET request via
the `request` collaborator (`make_request`) and return the response only
when it is a dict, `None` in every other case. -/
def collectionGetAux (request : String → Option UrlOptions → JValue)
    (base_path : String) (path : Option String) (options : Option UrlOptions) :
    Option JValue :=
  let full_path := getFullPath base_path path
  let response := request full_path options
  match response with
  | .obj fields => some (.obj fields)
  | _ => none

/-- Embeds the public `AstraDBCollection.get` (db.py:75-76): delegates to
`_get` with no options. -/
def collectionGet (request : String → Option UrlOptions → JValue)
    (base_path : String) (path : Option String) : Option JValue :=
  collectionGetAux request base_path path none

/-! ## Claim theorems: the db.py layer -/

/-- C9: constructing an `AstraDB` with a missing `db_id` or `token` fails
with the assertion message "Must provide db_id and token" uniformly in the
collaborators (hence before any network interaction); likewise for an
`AstraDBCollection` constructed without an `astra_db` handle. -/
theorem init_requires_db_id_and_token :
    (∀ (db_id tok db_region nspace : Option String) (fetchRegion : String → String),
        db_id = none ∨ tok = none →
        astraDB_init db_id tok db_region nspace fetchRegion
          = .error "Must provide db_id and token")
    ∧ (∀ (cname : String) (db_id tok db_region nspace : Option String)
          (fetchRegion : String → String),
        db_id = none ∨ tok = none →
        astraDBCollection_init cname none db_id tok db_region nspace fetchRegion
          = .error "Must provide db_id and token") := by
  constructor
  · intro db_id tok db_region nspace fetchRegion h
    cases db_id with
    | none => cases tok <;> rfl
    | some did =>
      cases tok with
      | none => rfl
      | some tk => rcases h with h | h <;> cases h
  · intro cname db_id tok db_region nspace fetchRegion h
    unfold astraDBCollection_init
    rw [if_pos h]

/-- Witness for C9: both conjuncts applied at concrete inputs with the
missing-argument hypotheses discharged there. -/
theorem init_requires_db_id_and_token_witness :
    astraDB_init none (some "AstraCS:tk") none none (fun _ => "eu-west-1")
      = .error "Must provide db_id and token"
    ∧ astraDBCollection_init "coll" none (some "0123-db") none none none
        (fun _ => "eu-west-1")
      = .error "Must provide db_id and token" :=
  ⟨init_requires_db_id_and_token.1 none (some "AstraCS:tk") none none
      (fun _ => "eu-west-1") (Or.inl rfl),
    init_requires_db_id_and_token.2 "coll" (some "0123-db") none none none
      (fun _ => "eu-west-1") (Or.inr rfl)⟩

/-- C10: `_get` (and hence the public `get`) returns the collaborator's
response exactly when that response is a dict, and `None` in every other
case — the result is always either the dict response or `None`. -/
theorem get_returns_dict_or_none :
    ∀ (request : String → Option UrlOptions → JValue) (bp : String)
      (path : Option String) (options : Option UrlOptions),
      ((isDict (request (getFullPath bp path) options) = true
          ∧ collectionGetAux request bp path options
            = some (request (getFullPath bp path) options))
        ∨ (isDict (request (getFullPath bp path) options) = false
          ∧ collectionGetAux request bp path options = none))
      ∧ collectionGet request bp path = collectionGetAux request bp path none := by
  intro request bp path options
  refine ⟨?_, rfl⟩
  cases hr : request (getFullPath bp path) options with
  | obj fields => exact Or.inl ⟨rfl, by simp [collectionGetAux, hr]⟩
  | null => exact Or.inr ⟨rfl, by simp [collectionGetAux, hr]⟩
  | bool b => exact Or.inr ⟨rfl, by simp [collectionGetAux, hr]⟩
  | num n => exact Or.inr ⟨rfl, by simp [collectionGetAux, hr]⟩
  | str s => exact Or.inr ⟨rfl, by simp [collectionGetAux, hr]⟩
  | date d => exact Or.inr ⟨rfl, by simp [collectionGetAux, hr]⟩
  | arr xs => exact Or.inr ⟨rfl, by simp [collectionGetAux, hr]⟩

/-! ## The result cursor

Modelled from the spec (§4.2): the idiomatic cursor is not under `src/`. -/

/-- Modelled from the spec: the cursor lifecycle states (§4.2). -/
inductive CursorState where
  | UNSTARTED : CursorState
  | ACTIVE : CursorState
  | EXHAUSTED : CursorState
  | CLOSED : CursorState
deriving DecidableEq, Repr

/-- Modelled from the spec: the immutable query descriptor, reduced to what
drives the cursor's paging behaviour — whether an explicit sort was
requested, whether a vector ranking was requested, and the optional limit
(§3). -/
structure QueryDescriptor where
  hasSort : Bool
  hasVector : Bool
  lim : Option Nat
deriving DecidableEq, Repr

/-- Modelled from the spec: the mutable cursor state — the descriptor, the
buffered queue of not-yet-yielded documents, the nullable next-page token,
the cumulative retrieved count and the lifecycle state (§3). Page tokens are
opaque to the cursor; here they are modelled as offsets. -/
structure Cursor (α : Type) where
  qd : QueryDescriptor
  buffer : List α
  nextToken : Option Nat
  retrieved : Nat
  state : CursorState
deriving DecidableEq, Repr

/-- A fresh `UNSTARTED` cursor over a descriptor. -/
def freshCursor {α : Type} (qd : QueryDescriptor) : Cursor α :=
  { qd := qd, buffer := [], nextToken := none, retrieved := 0, state := .UNSTARTED }

/-- Modelled from the spec: `rewind()` resets to `UNSTARTED`, discarding the
buffer and next-page token, resetting `retrieved` to zero and preserving the
QueryDescriptor; valid from any state (§4.2). -/
def rewind {α : Type} (c : Cursor α) : Cursor α :=
  { qd := c.qd, buffer := [], nextToken := none, retrieved := 0, state := .UNSTARTED }

/-- Whether the configured limit has been reached by the cumulative
retrieved count (§4.2). -/
def limitReached {α : Type} (c : Cursor α) : Bool :=
  match c.qd.lim with
  | some l => decide (l ≤ c.retrieved)
  | none => false

/-- Yield the next buffered document, or become `EXHAUSTED` when the buffer
is empty or the limit has been reached. -/
def yieldFromBuffer {α : Type} (c : Cursor α) : Option α × Cursor α :=
  if limitReached c then (none, { c with state := .EXHAUSTED })
  else
    match c.buffer with
    | d :: rest => (some d, { c with buffer := rest, retrieved := c.retrieved + 1 })
    | [] => (none, { c with state := .EXHAUSTED })

/-- Modelled from the spec: one pull on the cursor (§4.2).  A pull on a
`CLOSED` or `EXHAUSTED` cursor ends the sequence; the first pull fetches the
first page (`UNSTARTED → ACTIVE`); an `ACTIVE` cursor serves from its
buffer, fetching a new page when the buffer drains and a next-page token is
present, and becomes `EXHAUSTED` when the buffer drains with no token or the
limit is reached. -/
def next {α : Type} (fetch : Option Nat → List α × Option Nat) (c : Cursor α) :
    Option α × Cursor α :=
  match c.state with
  | .CLOSED => (none, c)
  | .EXHAUSTED => (none, c)
  | .UNSTARTED =>
    let p := fetch none
    yieldFromBuffer { c with buffer := p.1, nextToken := p.2, state := .ACTIVE }
  | .ACTIVE =>
    match c.buffer with
    | _ :: _ => yieldFromBuffer c
    | [] =>
      match c.nextToken with
      | some t =>
        let p := fetch (some t)
        yieldFromBuffer { c with buffer := p.1, nextToken := p.2 }
      | none => (none, { c with state := .EXHAUSTED })

/-- Drain the cursor: repeatedly pull until the sequence ends (fuel-indexed;
any fuel beyond the yielded length gives the full drain). -/
def drain {α : Type} (fetch : Option Nat → List α × Option Nat) :
    Nat → Cursor α → List α
  | 0, _ => []
  | fuel + 1, c =>
    match next fetch c with
    | (none, _) => []
    | (some d, c') => d :: drain fetch fuel c'

/-- Modelled from the spec: the PageFetcher collaborator (§6, §4.2) over a
fixed matching set.  In paginated mode, pages of size `ps` are served with an
offset continuation token; in non-paginated mode (explicit sort or vector
ranking requested) the entire matching set, sorted/ranked by `sortFn`, is
materialized in a single page with no continuation token, before anything is
yielded. -/
def fetchModel {α : Type} (matching : List α) (sortFn : List α → List α)
    (ps : Nat) (qd : QueryDescriptor) (tok : Option Nat) : List α × Option Nat :=
  if qd.hasSort || qd.hasVector then
    (sortFn matching, none)
  else
    let start := tok.getD 0
    ((matching.drop start).take ps,
      if start + ps < matching.length then some (start + ps) else none)

/-- The limit is applied to the materialized set (`none` means no
truncation). -/
def applyLimit {α : Type} (lim : Option Nat) (xs : List α) : List α :=
  match lim with
  | some l => xs.take l
  | none => xs

/-- The suffix of the matching set a continuation token points at. -/
def tokPart {α : Type} (matching : List α) : Option Nat → List α
  | some t => matching.drop t
  | none => []

/-- What remains to be yielded by a paginated cursor: the buffer, then the
suffix of the matching set the continuation token points at. -/
def pagedRemaining {α : Type} (matching : List α) (c : Cursor α) : List α :=
  c.buffer ++ tokPart matching c.nextToken

/-! ## Supporting lemmas on the cursor -/

theorem drop_take_cover {α : Type} (m : List α) (ps t : Nat) (hps : 1 ≤ ps) :
    (m.drop t).take ps ++ (if t + ps < m.length then m.drop (t + ps) else []) = m.drop t := by
  by_cases h : t + ps < m.length
  · rw [if_pos h]
    have hd : m.drop (t + ps) = (m.drop t).drop ps := by rw [List.drop_drop]
    rw [hd, List.take_append_drop]
  · rw [if_neg h, List.append_nil]
    apply List.take_of_length_le
    rw [List.length_drop]
    omega

/-- Full drain of an `ACTIVE` cursor in paginated mode (no sort, no vector,
no limit) yields exactly the buffered documents followed by the suffix its
continuation token points at. -/
theorem drain_paged {α : Type} (matching : List α) (sortFn : List α → List α)
    (ps : Nat) (qd : QueryDescriptor) (hsort : qd.hasSort = false)
    (hvec : qd.hasVector = false) (hlim : qd.lim = none) (hps : 1 ≤ ps) :
    ∀ (fuel : Nat) (c : Cursor α), c.qd = qd → c.state = .ACTIVE →
      (∀ t, c.nextToken = some t → t < matching.length) →
      (pagedRemaining matching c).length < fuel →
      drain (fetchModel matching sortFn ps qd) fuel c = pagedRemaining matching c := by
  intro fuel
  induction fuel with
  | zero => intro c _ _ _ hlen; omega
  | succ f ih =>
    intro c hq hst htok hlen
    have hnotlim : limitReached c = false := by
      unfold limitReached; rw [hq, hlim]
    cases hbuf : c.buffer with
    | cons d rest =>
      have hstep : drain (fetchModel matching sortFn ps qd) (f + 1) c
          = d :: drain (fetchModel matching sortFn ps qd) f
              { c with buffer := rest, retrieved := c.retrieved + 1 } := by
        simp [drain, next, yieldFromBuffer, hst, hbuf, hnotlim]
      rw [hstep]
      rw [ih { c with buffer := rest, retrieved := c.retrieved + 1 } hq hst htok
        (by simp only [pagedRemaining, hbuf] at hlen ⊢
            simp at hlen ⊢
            omega)]
      simp [pagedRemaining, hbuf]
    | nil =>
      cases htokc : c.nextToken with
      | none =>
        simp [drain, next, hst, hbuf, htokc, pagedRemaining, tokPart]
      | some t =>
        have ht : t < matching.length := htok t htokc
        obtain ⟨d, rest, hchunk⟩ : ∃ d rest, (matching.drop t).take ps = d :: rest := by
          cases hc : (matching.drop t).take ps with
          | nil =>
            exfalso
            have := congrArg List.length hc
            simp [List.length_take, List.length_drop] at this
            omega
          | cons d rest => exact ⟨d, rest, rfl⟩
        have hcover : (d :: rest)
            ++ tokPart matching (if t + ps < matching.length then some (t + ps) else none)
            = matching.drop t := by
          rw [← hchunk]
          by_cases h : t + ps < matching.length
          · simp only [if_pos h, tokPart]
            simpa [h] using drop_take_cover matching ps t hps
          · simp only [if_neg h, tokPart]
            simpa [h] using drop_take_cover matching ps t hps
        have hrem : pagedRemaining matching c = matching.drop t := by
          simp [pagedRemaining, hbuf, htokc, tokPart]
        rw [hrem]
        have hnext2 : next (fetchModel matching sortFn ps qd) c
            = (some d, { c with
                buffer := rest,
                nextToken := (if t + ps < matching.length then some (t + ps) else none),
                retrieved := c.retrieved + 1 }) := by
          simp [next, yieldFromBuffer, fetchModel, hsort, hvec, hst, hbuf, htokc,
            limitReached, hq, hlim, hchunk]
        simp only [drain, hnext2]
        have hlen2 : (matching.drop t).length < f + 1 := by rw [hrem] at hlen; exact hlen
        have hclen := congrArg List.length hcover
        simp only [List.length_cons, List.length_append] at hclen
        rw [ih { c with
              buffer := rest,
              nextToken := (if t + ps < matching.length then some (t + ps) else none),
              retrieved := c.retrieved + 1 } hq hst
          (by intro u hu
              simp only at hu
              by_cases h : t + ps < matching.length
              · rw [if_pos h] at hu
                cases hu
                exact h
              · rw [if_neg h] at hu
                cases hu)
          (by simp only [pagedRemaining]
              simp only [List.length_append]
              omega)]
        rw [← hcover]
        simp [pagedRemaining]

/-- Full drain of an `ACTIVE` cursor in non-paginated mode (everything
already materialized in the buffer, no continuation token) yields the buffer
truncated to what the limit still allows. -/
theorem drain_nonpaginated {α : Type} (fetch : Option Nat → List α × Option Nat) :
    ∀ (fuel : Nat) (c : Cursor α), c.state = .ACTIVE → c.nextToken = none →
      c.buffer.length < fuel →
      drain fetch fuel c
        = c.buffer.take (match c.qd.lim with
            | some l => l - c.retrieved
            | none => c.buffer.length) := by
  intro fuel
  induction fuel with
  | zero => intro c _ _ hlen; omega
  | succ f ih =>
    intro c hst htokc hlen
    cases hlr : limitReached c with
    | true =>
      have hzero : (match c.qd.lim with
          | some l => l - c.retrieved
          | none => c.buffer.length) = 0 := by
        unfold limitReached at hlr
        cases hq : c.qd.lim with
        | none => rw [hq] at hlr; cases hlr
        | some l =>
          rw [hq] at hlr
          simp at hlr
          simp
          omega
      rw [hzero]
      cases hbuf : c.buffer with
      | nil => simp [drain, next, hst, hbuf, htokc]
      | cons d rest => simp [drain, next, yieldFromBuffer, hst, hbuf, hlr]
    | false =>
      cases hbuf : c.buffer with
      | nil => simp [drain, next, hst, hbuf, htokc]
      | cons d rest =>
        have hstep : drain fetch (f + 1) c
            = d :: drain fetch f
                { c with buffer := rest, retrieved := c.retrieved + 1 } := by
          simp [drain, next, yieldFromBuffer, hst, hbuf, hlr]
        rw [hstep]
        rw [ih { c with buffer := rest, retrieved := c.retrieved + 1 } hst htokc
          (by simp only [hbuf] at hlen; simp at hlen ⊢; omega)]
        cases hq : c.qd.lim with
        | none => simp [hbuf]
        | some l =>
          simp only [hbuf]
          unfold limitReached at hlr
          rw [hq] at hlr
          simp at hlr
          have h1 : l - c.retrieved = (l - (c.retrieved + 1)) + 1 := by omega
          rw [h1]
          rfl

theorem yieldFromBuffer_fst_none {α : Type} (c : Cursor α) (h : c.buffer = []) :
    (yieldFromBuffer c).1 = none := by
  unfold yieldFromBuffer
  split
  · rfl
  · simp [h]

theorem drain_eq_nil_of_next_none {α : Type}
    (fetch : Option Nat → List α × Option Nat) (f : Nat) (c : Cursor α)
    (h : (next fetch c).1 = none) : drain fetch (f + 1) c = [] := by
  rcases hn : next fetch c with ⟨o, c2⟩
  rw [hn] at h
  simp only at h
  subst h
  simp [drain, hn]

/-! ## Claim theorems: the cursor -/

/-- C6: with no explicit sort and no vector ranking (and no limit), draining
a fresh cursor yields every matching document; with an explicit sort or a
vector similarity search the cursor is non-paginated — the entire matching
set is materialized, sorted/ranked, in a single fetch with no continuation
token, and the limit is applied only after that full materialization. -/
theorem cursor_pagination_modes {α : Type} (matching : List α)
    (sortFn : List α → List α) (ps fuel : Nat) (qd : QueryDescriptor)
    (hps : 1 ≤ ps) (hfuel1 : matching.length < fuel)
    (hfuel2 : (sortFn matching).length < fuel) :
    (qd.hasSort = false → qd.hasVector = false → qd.lim = none →
      drain (fetchModel matching sortFn ps qd) fuel (freshCursor qd) = matching)
    ∧ ((qd.hasSort = true ∨ qd.hasVector = true) →
      drain (fetchModel matching sortFn ps qd) fuel (freshCursor qd)
        = applyLimit qd.lim (sortFn matching)) := by
  obtain ⟨f, rfl⟩ : ∃ f, fuel = f + 1 := ⟨fuel - 1, by omega⟩
  constructor
  · intro hs hv hl
    cases hm : matching with
    | nil =>
      subst hm
      simp [drain, next, fetchModel, hs, hv, yieldFromBuffer, limitReached, hl, freshCursor]
    | cons m0 mrest =>
      rw [← hm]
      have hlen0 : 0 < matching.length := by rw [hm]; simp
      have h0 : next (fetchModel matching sortFn ps qd) (freshCursor qd : Cursor α)
          = next (fetchModel matching sortFn ps qd)
              { qd := qd, buffer := [], nextToken := some 0, retrieved := 0,
                state := .ACTIVE } := by
        simp [next, freshCursor, fetchModel, hs, hv]
      have h1 : drain (fetchModel matching sortFn ps qd) (f + 1)
            (freshCursor qd : Cursor α)
          = drain (fetchModel matching sortFn ps qd) (f + 1)
              { qd := qd, buffer := [], nextToken := some 0, retrieved := 0,
                state := .ACTIVE } := by
        simp only [drain, h0]
      rw [h1, drain_paged matching sortFn ps qd hs hv hl hps (f + 1) _ rfl rfl
        (fun t ht => by
          simp only at ht
          cases ht
          exact hlen0)
        (by simp only [pagedRemaining, tokPart, List.nil_append, List.drop_zero]
            exact hfuel1)]
      simp [pagedRemaining, tokPart]
  · intro hsv
    have hfetch : ∀ tok, fetchModel matching sortFn ps qd tok = (sortFn matching, none) := by
      intro tok
      rcases hsv with h | h <;> simp [fetchModel, h]
    cases hsorted : sortFn matching with
    | nil =>
      apply Eq.trans (drain_eq_nil_of_next_none _ f _ ?_)
      · cases hq : qd.lim <;> simp [applyLimit, hsorted]
      · have hx : next (fetchModel matching sortFn ps qd) (freshCursor qd : Cursor α)
            = yieldFromBuffer {
                qd := qd,
                buffer := sortFn matching,
                nextToken := none,
                retrieved := 0,
                state := .ACTIVE } := by
          simp [next, freshCursor, hfetch]
        rw [hx]
        apply yieldFromBuffer_fst_none
        simp [hsorted]
    | cons d rest =>
      have h0 : next (fetchModel matching sortFn ps qd) (freshCursor qd : Cursor α)
          = next (fetchModel matching sortFn ps qd)
              { qd := qd, buffer := sortFn matching, nextToken := none,
                retrieved := 0, state := .ACTIVE } := by
        simp [next, freshCursor, hfetch, hsorted]
      have h1 : drain (fetchModel matching sortFn ps qd) (f + 1)
            (freshCursor qd : Cursor α)
          = drain (fetchModel matching sortFn ps qd) (f + 1)
              { qd := qd, buffer := sortFn matching, nextToken := none,
                retrieved := 0, state := .ACTIVE } := by
        simp only [drain, h0]
      rw [h1, drain_nonpaginated _ (f + 1) _ rfl rfl (by simpa using hfuel2)]
      cases hq : qd.lim with
      | none => simp [applyLimit, hsorted]
      | some l => simp [applyLimit, hsorted]

/-- Witness for C6: 30 matching documents, page size 20 (the default), no
sort, no vector, no limit — the fresh cursor drains to exactly the 30
documents. -/
theorem cursor_pagination_modes_witness :
    drain (fetchModel (List.range 30) id 20 ⟨false, false, none⟩) 31
      (freshCursor ⟨false, false, none⟩) = List.range 30 :=
  (cursor_pagination_modes (List.range 30) id 20 31 ⟨false, false, none⟩
    (by decide) (by decide) (by decide)).1 rfl rfl rfl

/-- C7: from any cursor state (hence after any partial consumption),
`rewind()` followed by a full drain produces the same sequence as a fresh
cursor over the same QueryDescriptor; rewind resets the lifecycle state to
`UNSTARTED`, discards the buffer and the next-page token, resets `retrieved`
to zero and leaves the QueryDescriptor untouched. -/
theorem rewind_restarts_cursor {α : Type} :
    ∀ (c : Cursor α) (fetch : Option Nat → List α × Option Nat) (fuel : Nat),
      drain fetch fuel (rewind c) = drain fetch fuel (freshCursor c.qd)
      ∧ (rewind c).state = .UNSTARTED
      ∧ (rewind c).buffer = ([] : List α)
      ∧ (rewind c).nextToken = none
      ∧ (rewind c).retrieved = 0
      ∧ (rewind c).qd = c.qd :=
  fun _ _ _ => ⟨rfl, rfl, rfl, rfl, rfl, rfl⟩

/-! ## The bulk-write executor

Modelled from the spec (§4.3): the idiomatic bulk-write orchestrator is not
under `src/`. -/

/-- Modelled from the spec: the tagged union of write operations (§3); the
payloads (filters, documents, updates, vectors) are abstract — only the
operation kind, which drives dispatch and aggregation, is kept. -/
inductive WriteOperation where
  | insertOne : WriteOperation
  | insertMany : Nat → WriteOperation
  | updateOne : WriteOperation
  | updateMany : WriteOperation
  | replaceOne : Bool → WriteOperation
  | deleteOne : WriteOperation
  | deleteMany : WriteOperation
deriving DecidableEq, Repr

/-- Modelled from the spec: the operation-specific result record the
WriteDispatcher collaborator returns (§6) — insert: assigned ids;
update/replace: matched/modified counts and the optional upserted id;
delete: deleted count. -/
inductive OpResult where
  | insertRes : List String → OpResult
  | updateRes : Nat → Nat → Option String → OpResult
  | deleteRes : Nat → OpResult
deriving DecidableEq, Repr

/-- Modelled from the spec: the aggregated BulkWriteResult (§3), with the
upserted-id map as an association list keyed by operation position. -/
structure BulkWriteResult where
  inserted_count : Nat
  matched_count : Nat
  modified_count : Nat
  deleted_count : Nat
  upserted_count : Nat
  upserted_ids : List (Nat × String)
deriving DecidableEq, Repr

/-- The zeroed aggregate a bulk-write call starts from. -/
def emptyBulkResult : BulkWriteResult :=
  { inserted_count := 0, matched_count := 0, modified_count := 0,
    deleted_count := 0, upserted_count := 0, upserted_ids := [] }

/-- Per-result effects (§4.3 aggregation rule). -/
def insertedOf : OpResult → Nat
  | .insertRes ids => ids.length
  | _ => 0

def matchedOf : OpResult → Nat
  | .updateRes m _ _ => m
  | _ => 0

def modifiedOf : OpResult → Nat
  | .updateRes _ mo _ => mo
  | _ => 0

def deletedOf : OpResult → Nat
  | .deleteRes dc => dc
  | _ => 0

def upsertIdOf : OpResult → Option String
  | .updateRes _ _ u => u
  | _ => none

def upsertCountOf (r : OpResult) : Nat :=
  match upsertIdOf r with
  | some _ => 1
  | none => 0

/-- Modelled from the spec: fold one operation's result into the aggregate
(§4.3) — insert results add the number of assigned ids; update/replace
results add their matched/modified counts, and when an upsert occurred add
one upsert with its id recorded under the operation's original position;
delete results add the deleted count. -/
def aggregate (acc : BulkWriteResult) (pos : Nat) : OpResult → BulkWriteResult
  | .insertRes ids =>
    { acc with inserted_count := acc.inserted_count + ids.length }
  | .updateRes m mo none =>
    { acc with
      matched_count := acc.matched_count + m,
      modified_count := acc.modified_count + mo }
  | .updateRes m mo (some uid) =>
    { acc with
      matched_count := acc.matched_count + m,
      modified_count := acc.modified_count + mo,
      upserted_count := acc.upserted_count + 1,
      upserted_ids := acc.upserted_ids ++ [(pos, uid)] }
  | .deleteRes dc =>
    { acc with deleted_count := acc.deleted_count + dc }

/-- Outcome of an ordered bulk write: success with the full result, or
failure carrying the partial result, the single failing position and its
error. -/
inductive BulkOutcome where
  | success : BulkWriteResult → BulkOutcome
  | failure : BulkWriteResult → Nat → String → BulkOutcome
deriving DecidableEq, Repr

/-- Modelled from the spec: ordered dispatch from position `pos` (§4.3) —
operations strictly in sequence, one in flight at a time; the first failing
operation stops execution immediately with the partial result accumulated
strictly before it and that single failure record.  The second component is
the list of positions actually dispatched, in dispatch order. -/
def executeOrderedFrom (dispatch : Nat → WriteOperation → Except String OpResult) :
    Nat → BulkWriteResult → List WriteOperation → BulkOutcome × List Nat
  | _, acc, [] => (.success acc, [])
  | pos, acc, op :: rest =>
    match dispatch pos op with
    | .error e => (.failure acc pos e, [pos])
    | .ok r =>
      let t := executeOrderedFrom dispatch (pos + 1) (aggregate acc pos r) rest
      (t.1, pos :: t.2)

/-- Ordered bulk write over the whole operation list, positions 0..N-1. -/
def executeOrdered (dispatch : Nat → WriteOperation → Except String OpResult)
    (ops : List WriteOperation) : BulkOutcome × List Nat :=
  executeOrderedFrom dispatch 0 emptyBulkResult ops

/-- Reference aggregation: fold the results of `n` consecutive positions
starting at `pos` into the aggregate. -/
def aggregateList (acc : BulkWriteResult) (pos : Nat) (res : Nat → OpResult) :
    Nat → BulkWriteResult
  | 0 => acc
  | n + 1 => aggregateList (aggregate acc pos (res pos)) (pos + 1) res n

/-! ## Supporting lemmas on the ordered bulk write -/

theorem aggregate_fields (acc : BulkWriteResult) (pos : Nat) (r : OpResult) :
    aggregate acc pos r
      = { inserted_count := acc.inserted_count + insertedOf r,
          matched_count := acc.matched_count + matchedOf r,
          modified_count := acc.modified_count + modifiedOf r,
          deleted_count := acc.deleted_count + deletedOf r,
          upserted_count := acc.upserted_count + upsertCountOf r,
          upserted_ids := acc.upserted_ids
            ++ (match upsertIdOf r with
                | some u => [(pos, u)]
                | none => []) } := by
  cases r with
  | insertRes ids =>
    simp [aggregate, insertedOf, matchedOf, modifiedOf, deletedOf, upsertCountOf, upsertIdOf]
  | updateRes m mo u =>
    cases u with
    | none =>
      simp [aggregate, insertedOf, matchedOf, modifiedOf, deletedOf, upsertCountOf, upsertIdOf]
    | some uid =>
      simp [aggregate, insertedOf, matchedOf, modifiedOf, deletedOf, upsertCountOf, upsertIdOf]
  | deleteRes dc =>
    simp [aggregate, insertedOf, matchedOf, modifiedOf, deletedOf, upsertCountOf, upsertIdOf]

theorem aggregateList_spec (res : Nat → OpResult) :
    ∀ (n pos : Nat) (acc : BulkWriteResult),
      aggregateList acc pos res n
        = { inserted_count := acc.inserted_count
              + ((List.range' pos n).map (fun i => insertedOf (res i))).sum,
            matched_count := acc.matched_count
              + ((List.range' pos n).map (fun i => matchedOf (res i))).sum,
            modified_count := acc.modified_count
              + ((List.range' pos n).map (fun i => modifiedOf (res i))).sum,
            deleted_count := acc.deleted_count
              + ((List.range' pos n).map (fun i => deletedOf (res i))).sum,
            upserted_count := acc.upserted_count
              + ((List.range' pos n).map (fun i => upsertCountOf (res i))).sum,
            upserted_ids := acc.upserted_ids
              ++ (List.range' pos n).filterMap
                  (fun i => (upsertIdOf (res i)).map (fun u => (i, u))) } := by
  intro n
  induction n with
  | zero =>
    intro pos acc
    simp [aggregateList, List.range']
  | succ m ih =>
    intro pos acc
    show aggregateList (aggregate acc pos (res pos)) (pos + 1) res m = _
    rw [ih, aggregate_fields]
    rw [List.range'_succ]
    cases hu : upsertIdOf (res pos) with
    | none =>
      simp [upsertCountOf, hu, Nat.add_assoc]
    | some u =>
      simp [upsertCountOf, hu, Nat.add_assoc]

theorem executeOrderedFrom_ok (dispatch : Nat → WriteOperation → Except String OpResult)
    (res : Nat → OpResult) :
    ∀ (ops : List WriteOperation) (pos : Nat) (acc : BulkWriteResult),
      (∀ i (hi : i < ops.length), dispatch (pos + i) (ops.get ⟨i, hi⟩) = .ok (res (pos + i))) →
      executeOrderedFrom dispatch pos acc ops
        = (.success (aggregateList acc pos res ops.length), List.range' pos ops.length) := by
  intro ops
  induction ops with
  | nil => intro pos acc _; rfl
  | cons op rest ih =>
    intro pos acc h
    have h0 : dispatch pos op = .ok (res pos) := by
      have := h 0 (by simp)
      simpa using this
    show (match dispatch pos op with
      | .error e => (BulkOutcome.failure acc pos e, [pos])
      | .ok r =>
        let t := executeOrderedFrom dispatch (pos + 1) (aggregate acc pos r) rest
        (t.1, pos :: t.2)) = _
    rw [h0]
    show ((executeOrderedFrom dispatch (pos + 1) (aggregate acc pos (res pos)) rest).1,
        pos :: (executeOrderedFrom dispatch (pos + 1) (aggregate acc pos (res pos)) rest).2)
      = _
    rw [ih (pos + 1) (aggregate acc pos (res pos))
      (fun i hi => by
        have := h (i + 1) (by simpa using Nat.succ_lt_succ hi)
        simpa [Nat.add_assoc, Nat.add_comm 1 i] using this)]
    simp [aggregateList, List.range'_succ]

theorem executeOrderedFrom_fail
    (dispatch : Nat → WriteOperation → Except String OpResult) (e : String) :
    ∀ (k : Nat) (ops : List WriteOperation) (pos : Nat) (acc : BulkWriteResult)
      (hk : k < ops.length),
      dispatch (pos + k) (ops.get ⟨k, hk⟩) = .error e →
      (∀ i (hi : i < k), ∃ r, dispatch (pos + i) (ops.get ⟨i, Nat.lt_trans hi hk⟩) = .ok r) →
      ∃ R, executeOrderedFrom dispatch pos acc (ops.take k) = (.success R, List.range' pos k)
        ∧ executeOrderedFrom dispatch pos acc ops
            = (.failure R (pos + k) e, List.range' pos (k + 1)) := by
  intro k
  induction k with
  | zero =>
    intro ops pos acc hk hfail _
    cases ops with
    | nil => exact absurd hk (by simp)
    | cons op rest =>
      refine ⟨acc, rfl, ?_⟩
      have h0 : dispatch pos op = .error e := by simpa using hfail
      show (match dispatch pos op with
        | .error e => (BulkOutcome.failure acc pos e, [pos])
        | .ok r =>
          let t := executeOrderedFrom dispatch (pos + 1) (aggregate acc pos r) rest
          (t.1, pos :: t.2)) = _
      rw [h0]
      simp [List.range'_succ, List.range']
  | succ m ih =>
    intro ops pos acc hk hfail hok
    cases ops with
    | nil => exact absurd hk (by simp)
    | cons op rest =>
      obtain ⟨r0, hr0⟩ := hok 0 (Nat.succ_pos m)
      have hr0' : dispatch pos op = .ok r0 := by simpa using hr0
      have hkr : m < rest.length := by simpa using Nat.lt_of_succ_lt_succ hk
      obtain ⟨R, h1, h2⟩ := ih rest (pos + 1) (aggregate acc pos r0) hkr
        (by
          have : dispatch (pos + (m + 1)) ((op :: rest).get ⟨m + 1, hk⟩) = .error e := hfail
          simpa [Nat.add_assoc, Nat.add_comm 1 m] using this)
        (fun i hi => by
          obtain ⟨r, hr⟩ := hok (i + 1) (Nat.succ_lt_succ hi)
          exact ⟨r, by simpa [Nat.add_assoc, Nat.add_comm 1 i] using hr⟩)
      refine ⟨R, ?_, ?_⟩
      · show (match dispatch pos op with
          | .error e => (BulkOutcome.failure acc pos e, [pos])
          | .ok r =>
            let t := executeOrderedFrom dispatch (pos + 1) (aggregate acc pos r) (rest.take m)
            (t.1, pos :: t.2)) = _
        rw [hr0']
        simp only [h1]
        simp [List.range'_succ]
      · show (match dispatch pos op with
          | .error e => (BulkOutcome.failure acc pos e, [pos])
          | .ok r =>
            let t := executeOrderedFrom dispatch (pos + 1) (aggregate acc pos r) rest
            (t.1, pos :: t.2)) = _
        rw [hr0']
        simp only [h2]
        rw [show pos + 1 + m = pos + (m + 1) by omega, List.range'_succ pos (m + 1) 1]

/-- The ordered-bulk-write failure example: four operations, the one at
position 2 fails. -/
def bulkOps4 : List WriteOperation :=
  [.insertOne, .insertOne, .insertOne, .insertOne]

/-- Dispatcher for the failure example: position 2 fails, the rest insert one
document each. -/
def bulkDispatch4 (pos : Nat) (_ : WriteOperation) : Except String OpResult :=
  if pos = 2 then .error "duplicate _id" else .ok (.insertRes ["x"])

/-- The mixed 8-operation ordered bulk write of the spec's example (§8):
insert, insert-many, update, update-many, replace, delete, delete-many,
upsert-replace. -/
def bulkOps8 : List WriteOperation :=
  [.insertOne, .insertMany 3, .updateOne, .updateMany, .replaceOne false,
   .deleteOne, .deleteMany, .replaceOne true]

/-- Per-position results for the 8-operation example; only position 7 (the
upserting replace) reports an upserted id. -/
def bulkRes8 : Nat → OpResult
  | 0 => .insertRes ["i0"]
  | 1 => .insertRes ["i1", "i2", "i3"]
  | 2 => .updateRes 1 1 none
  | 3 => .updateRes 3 3 none
  | 4 => .updateRes 1 1 none
  | 5 => .deleteRes 1
  | 6 => .deleteRes 2
  | 7 => .updateRes 0 0 (some "seq4")
  | _ => .deleteRes 0

/-- Dispatcher for the 8-operation example: every position succeeds with its
result. -/
def bulkDispatch8 (pos : Nat) (_ : WriteOperation) : Except String OpResult :=
  .ok (bulkRes8 pos)

/-! ## Claim theorems: the bulk-write executor (ordered) -/

/-- C4: in an ordered bulk write, if the operation at index `k` is the first
to fail, execution stops at `k`: the outcome carries the partial result built
exactly from indices `[0, k)` (it equals the successful run over `ops.take
k`) together with the single failure record `(k, e)`, and the dispatched
positions are exactly `0..k` — no operation with index greater than `k` is
ever dispatched. -/
theorem bulk_ordered_stops_at_first_failure
    (dispatch : Nat → WriteOperation → Except String OpResult)
    (ops : List WriteOperation) (k : Nat) (e : String) (hk : k < ops.length)
    (hfail : dispatch k (ops.get ⟨k, hk⟩) = .error e)
    (hok : ∀ i (hi : i < k), ∃ r, dispatch i (ops.get ⟨i, Nat.lt_trans hi hk⟩) = .ok r) :
    ∃ R, executeOrdered dispatch (ops.take k) = (.success R, List.range k)
      ∧ executeOrdered dispatch ops = (.failure R k e, List.range (k + 1)) := by
  obtain ⟨R, h1, h2⟩ := executeOrderedFrom_fail dispatch e k ops 0 emptyBulkResult hk
    (by simpa using hfail) (fun i hi => by simpa using hok i hi)
  refine ⟨R, ?_, ?_⟩
  · rw [executeOrdered, List.range_eq_range']
    exact h1
  · rw [executeOrdered, List.range_eq_range']
    simpa using h2

/-- Witness for C4: operations [ok, ok, fails, ok] — the partial result
reflects only the first two and position 3 is never dispatched (the trace is
[0, 1, 2]). -/
theorem bulk_ordered_stops_at_first_failure_witness :
    ∃ R, executeOrdered bulkDispatch4 (bulkOps4.take 2) = (.success R, List.range 2)
      ∧ executeOrdered bulkDispatch4 bulkOps4
          = (.failure R 2 "duplicate _id", List.range 3) := by
  have h := bulk_ordered_stops_at_first_failure bulkDispatch4 bulkOps4 2 "duplicate _id"
    (by decide) (by decide)
    (fun i hi => ⟨.insertRes ["x"], by
      rcases i with _ | _ | i
      · rfl
      · rfl
      · exact absurd hi (by omega)⟩)
  exact h

/-- C5: when no operation fails, the ordered bulk write succeeds and every
aggregate count equals the sum of the corresponding per-operation effects,
while `upserted_ids` maps exactly the original zero-based position of each
upserting operation to its upserted id. -/
theorem bulk_ordered_aggregation
    (dispatch : Nat → WriteOperation → Except String OpResult)
    (ops : List WriteOperation) (res : Nat → OpResult)
    (h : ∀ i (hi : i < ops.length), dispatch i (ops.get ⟨i, hi⟩) = .ok (res i)) :
    executeOrdered dispatch ops
      = (.success
          { inserted_count := ((List.range ops.length).map (fun i => insertedOf (res i))).sum,
            matched_count := ((List.range ops.length).map (fun i => matchedOf (res i))).sum,
            modified_count := ((List.range ops.length).map (fun i => modifiedOf (res i))).sum,
            deleted_count := ((List.range ops.length).map (fun i => deletedOf (res i))).sum,
            upserted_count := ((List.range ops.length).map (fun i => upsertCountOf (res i))).sum,
            upserted_ids := (List.range ops.length).filterMap
              (fun i => (upsertIdOf (res i)).map (fun u => (i, u))) },
        List.range ops.length) := by
  rw [executeOrdered, executeOrderedFrom_ok dispatch res ops 0 emptyBulkResult
    (fun i hi => by simpa using h i hi)]
  rw [aggregateList_spec]
  rw [List.range_eq_range']
  simp [emptyBulkResult]

/-- Witness for C5: the mixed 8-operation sequence with upsert only at
position 7 — the counts are the sums of the per-operation effects and
`upserted_ids` has exactly the key 7. -/
theorem bulk_ordered_aggregation_witness :
    executeOrdered bulkDispatch8 bulkOps8
      = (.success
          { inserted_count := 4, matched_count := 5, modified_count := 5,
            deleted_count := 3, upserted_count := 1, upserted_ids := [(7, "seq4")] },
        List.range 8) := by
  have h := bulk_ordered_aggregation bulkDispatch8 bulkOps8 bulkRes8 (fun i hi => rfl)
  rw [h]
  decide

/-! ## The unordered bulk-write scheduler

Modelled from the spec (§4.3, §5): bounded concurrent dispatch with
full-failure-set aggregation; the schedule of starts and completions models
the adversarial wall-clock interleaving. -/

/-- Modelled from the spec: scheduler actions — start the next pending
operation, or complete the in-flight operation at a given position. -/
inductive UAction where
  | start : UAction
  | complete : Nat → UAction
deriving DecidableEq, Repr

/-- Modelled from the spec: the unordered executor's state — operation
positions not yet dispatched (in submission order), positions currently in
flight, and completed positions each with the dispatcher's outcome. -/
structure UState where
  pending : List Nat
  inflight : List Nat
  done : List (Nat × Except String OpResult)
deriving DecidableEq, Repr

/-- Initial scheduler state for `n` operations. -/
def uInit (n : Nat) : UState :=
  { pending := List.range n, inflight := [], done := [] }

/-- Modelled from the spec: one scheduler step (§4.3, §5).  `start`
dispatches the next pending operation only while strictly fewer than `conc`
operations are in flight (the bounded worker pool / counting semaphore);
`complete i` finishes in-flight operation `i`, recording the dispatcher's
outcome for it — the operation is recorded whether it succeeded or failed,
so there is no short-circuiting. -/
def uStep (conc : Nat) (dispatch : Nat → Except String OpResult)
    (s : UState) : UAction → UState
  | .start =>
    if s.inflight.length < conc then
      match s.pending with
      | [] => s
      | i :: rest => { s with pending := rest, inflight := s.inflight ++ [i] }
    else s
  | .complete i =>
    if i ∈ s.inflight then
      { s with
        inflight := s.inflight.erase i,
        done := s.done ++ [(i, dispatch i)] }
    else s

/-- Run a schedule from the initial state. -/
def uRun (n conc : Nat) (dispatch : Nat → Except String OpResult)
    (acts : List UAction) : UState :=
  acts.foldl (uStep conc dispatch) (uInit n)

/-- A schedule is complete when nothing is left pending or in flight. -/
def uComplete (n conc : Nat) (dispatch : Nat → Except String OpResult)
    (acts : List UAction) : Prop :=
  (uRun n conc dispatch acts).pending = []
  ∧ (uRun n conc dispatch acts).inflight = []

/-- Modelled from the spec: the position-ordered outcome readback — the
aggregation consumes the completed outcomes keyed by operation position, not
by completion order (§5). -/
def uOutcome (n conc : Nat) (dispatch : Nat → Except String OpResult)
    (acts : List UAction) : List (Option (Except String OpResult)) :=
  (List.range n).map
    (fun i => ((uRun n conc dispatch acts).done.find? (fun p => p.1 == i)).map (·.2))

/-- The scheduler invariant: every position is exactly once pending, in
flight or done, and every recorded outcome is the dispatcher's outcome for
its position. -/
def uWF (n : Nat) (dispatch : Nat → Except String OpResult) (s : UState) : Prop :=
  (s.pending ++ s.inflight ++ s.done.map Prod.fst).Perm (List.range n)
  ∧ ∀ p ∈ s.done, p.2 = dispatch p.1

/-! ## Supporting lemmas on the unordered scheduler -/

theorem uStep_inflight_le (conc : Nat) (dispatch : Nat → Except String OpResult)
    (s : UState) (a : UAction) (h : s.inflight.length ≤ conc) :
    (uStep conc dispatch s a).inflight.length ≤ conc := by
  cases a with
  | start =>
    simp only [uStep]
    by_cases hlt : s.inflight.length < conc
    · rw [if_pos hlt]
      cases hp : s.pending with
      | nil => exact h
      | cons i rest =>
        simp only [List.length_append, List.length_cons, List.length_nil]
        omega
    · rw [if_neg hlt]; exact h
  | complete i =>
    simp only [uStep]
    by_cases hm : i ∈ s.inflight
    · rw [if_pos hm]
      exact Nat.le_trans (List.length_erase_le i s.inflight) h
    · rw [if_neg hm]; exact h

theorem uRun_aux_inflight_le (conc : Nat) (dispatch : Nat → Except String OpResult) :
    ∀ (acts : List UAction) (s : UState), s.inflight.length ≤ conc →
      (acts.foldl (uStep conc dispatch) s).inflight.length ≤ conc := by
  intro acts
  induction acts with
  | nil => intro s h; exact h
  | cons a rest ih =>
    intro s h
    exact ih (uStep conc dispatch s a) (uStep_inflight_le conc dispatch s a h)

theorem uStep_wf (n conc : Nat) (dispatch : Nat → Except String OpResult)
    (s : UState) (a : UAction) (h : uWF n dispatch s) :
    uWF n dispatch (uStep conc dispatch s a) := by
  obtain ⟨hperm, hdone⟩ := h
  cases a with
  | start =>
    simp only [uStep]
    by_cases hlt : s.inflight.length < conc
    · rw [if_pos hlt]
      cases hp : s.pending with
      | nil => exact ⟨hperm, hdone⟩
      | cons i rest =>
        rw [hp] at hperm
        refine ⟨?_, hdone⟩
        have e1 : rest ++ (s.inflight ++ [i]) ++ s.done.map Prod.fst
            = ((rest ++ s.inflight) ++ [i]) ++ s.done.map Prod.fst := by
          rw [List.append_assoc rest s.inflight [i]]
        show (rest ++ (s.inflight ++ [i]) ++ s.done.map Prod.fst).Perm (List.range n)
        rw [e1]
        refine List.Perm.trans
          ((List.perm_append_singleton i (rest ++ s.inflight)).append_right _) ?_
        exact hperm
    · rw [if_neg hlt]; exact ⟨hperm, hdone⟩
  | complete i =>
    simp only [uStep]
    by_cases hm : i ∈ s.inflight
    · rw [if_pos hm]
      have hinf : s.inflight.Perm (i :: s.inflight.erase i) := List.perm_cons_erase hm
      constructor
      · show (s.pending ++ s.inflight.erase i
            ++ (s.done ++ [(i, dispatch i)]).map Prod.fst).Perm (List.range n)
        simp only [List.map_append, List.map_cons, List.map_nil]
        have l1 : ((s.pending ++ s.inflight.erase i)
              ++ (s.done.map Prod.fst ++ [(i, dispatch i).1])).Perm
            (i :: (s.pending ++ s.inflight.erase i ++ s.done.map Prod.fst)) := by
          refine List.Perm.trans
            (List.Perm.append_left _ (List.perm_append_singleton _ _)) ?_
          exact List.perm_middle
        have l2 : (s.pending ++ (i :: s.inflight.erase i) ++ s.done.map Prod.fst).Perm
            (List.range n) := by
          refine List.Perm.trans ?_ hperm
          exact (List.Perm.append_left s.pending hinf.symm).append_right _
        have l3 : (s.pending ++ (i :: s.inflight.erase i) ++ s.done.map Prod.fst).Perm
            (i :: (s.pending ++ s.inflight.erase i ++ s.done.map Prod.fst)) := by
          have e : s.pending ++ (i :: s.inflight.erase i) ++ s.done.map Prod.fst
              = s.pending ++ (i :: (s.inflight.erase i ++ s.done.map Prod.fst)) := by
            rw [List.append_assoc]
            rfl
          rw [e]
          refine List.Perm.trans List.perm_middle ?_
          rw [List.append_assoc]
        exact l1.trans (l3.symm.trans l2)
      · intro p hp
        rcases List.mem_append.mp hp with hp1 | hp2
        · exact hdone p hp1
        · have : p = (i, dispatch i) := by simpa using hp2
          rw [this]
    · rw [if_neg hm]; exact ⟨hperm, hdone⟩

theorem uRun_wf (n conc : Nat) (dispatch : Nat → Except String OpResult)
    (acts : List UAction) : uWF n dispatch (uRun n conc dispatch acts) := by
  have base : uWF n dispatch (uInit n) := by
    constructor
    · simp [uInit]
    · intro p hp
      simp [uInit] at hp
  have step : ∀ (acts : List UAction) (s : UState), uWF n dispatch s →
      uWF n dispatch (acts.foldl (uStep conc dispatch) s) := by
    intro acts
    induction acts with
    | nil => intro s h; exact h
    | cons a rest ih =>
      intro s h
      exact ih (uStep conc dispatch s a) (uStep_wf n conc dispatch s a h)
  exact step acts (uInit n) base

theorem find?_done_eq (dispatch : Nat → Except String OpResult) :
    ∀ (done : List (Nat × Except String OpResult)),
      (∀ p ∈ done, p.2 = dispatch p.1) → ∀ i, i ∈ done.map Prod.fst →
      (done.find? (fun p => p.1 == i)).map (·.2) = some (dispatch i) := by
  intro done
  induction done with
  | nil => intro _ i hi; simp at hi
  | cons q qs ih =>
    intro hdone i hi
    by_cases hq : q.1 = i
    · rw [List.find?_cons_of_pos qs (by simp [hq])]
      show some q.2 = some (dispatch i)
      rw [hdone q (List.mem_cons_self _ _), hq]
    · rw [List.find?_cons_of_neg qs (by simp [hq])]
      apply ih (fun p hp => hdone p (List.mem_cons_of_mem _ hp))
      simp only [List.map_cons, List.mem_cons] at hi
      rcases hi with hi | hi
      · exact absurd hi.symm hq
      · exact hi

/-- Dispatcher of the unordered witness: position 1 fails, the others
succeed. -/
def uDispatch3 : Nat → Except String OpResult :=
  fun i => if i = 1 then .error "boom" else .ok (.deleteRes 0)

/-- A complete schedule for three operations under concurrency 2: two
starts, a completion, the last start, then the remaining completions. -/
def uActs3 : List UAction :=
  [.start, .start, .complete 0, .start, .complete 1, .complete 2]

/-! ## Claim theorems: the bulk-write executor (unordered) -/

/-- C8: for an unordered bulk write over `n` operations with concurrency
limit `conc ≥ 1`: (i) under every schedule, never more than `conc`
dispatches are in flight simultaneously; (ii) under every complete schedule,
all `n` operations are attempted — each position's outcome is recorded as
the dispatcher's outcome for it, success or failure alike, so no operation
is short-circuited; (iii) the position-ordered outcome readback, hence the
aggregated result, is identical under any two complete schedules,
independent of wall-clock completion order. -/
theorem bulk_unordered_concurrency (n conc : Nat)
    (dispatch : Nat → Except String OpResult) (hc : 1 ≤ conc) :
    (∀ acts : List UAction, (uRun n conc dispatch acts).inflight.length ≤ conc)
    ∧ (∀ acts : List UAction, uComplete n conc dispatch acts →
        ∀ i, i < n → ∃ r, (i, r) ∈ (uRun n conc dispatch acts).done ∧ r = dispatch i)
    ∧ (∀ acts1 acts2 : List UAction, uComplete n conc dispatch acts1 →
        uComplete n conc dispatch acts2 →
        uOutcome n conc dispatch acts1 = uOutcome n conc dispatch acts2) := by
  have houtcome : ∀ acts, uComplete n conc dispatch acts →
      uOutcome n conc dispatch acts
        = (List.range n).map (fun i => some (dispatch i)) := by
    intro acts hcomp
    obtain ⟨hperm, hdone⟩ := uRun_wf n conc dispatch acts
    rw [hcomp.1, hcomp.2] at hperm
    simp only [List.nil_append] at hperm
    unfold uOutcome
    apply List.map_congr_left
    intro i hi
    exact find?_done_eq dispatch _ hdone i (hperm.mem_iff.mpr hi)
  refine ⟨?_, ?_, ?_⟩
  · intro acts
    exact uRun_aux_inflight_le conc dispatch acts (uInit n) (by simp [uInit])
  · intro acts hcomp i hin
    obtain ⟨hperm, hdone⟩ := uRun_wf n conc dispatch acts
    rw [hcomp.1, hcomp.2] at hperm
    simp only [List.nil_append] at hperm
    have hmem : i ∈ (uRun n conc dispatch acts).done.map Prod.fst :=
      hperm.mem_iff.mpr (List.mem_range.mpr hin)
    obtain ⟨p, hp, hpi⟩ := List.mem_map.mp hmem
    refine ⟨p.2, ?_, by rw [hdone p hp, hpi]⟩
    have hpe : (i, p.2) = p := by
      cases p with
      | mk a b =>
        cases hpi
        rfl
    rw [hpe]
    exact hp
  · intro acts1 acts2 h1 h2
    rw [houtcome acts1 h1, houtcome acts2 h2]

/-- Witness for C8: three operations, concurrency 2, position 1's dispatch
fails — under the concrete complete schedule the failing operation is still
attempted and its outcome recorded. -/
theorem bulk_unordered_concurrency_witness :
    ∃ r, (1, r) ∈ (uRun 3 2 uDispatch3 uActs3).done ∧ r = uDispatch3 1 :=
  (bulk_unordered_concurrency 3 2 uDispatch3 (by decide)).2.1 uActs3
    ⟨by decide, by decide⟩ 1 (by decide)

end Astrapy
